import Mathlib

set_option autoImplicit false

namespace GitLasso

/-!
# Verification of the GitLasso core against its specification

Shallow embedding of the table layout engine (`src/tui/table.rs`), the
process orchestrator (`src/parallel_run.rs`), the interactive selector
(`src/command/context.rs`) and the configuration round-trip
(`src/config.rs`), with theorems settling the specification's claims.

Strings are modelled as `List Char` (Rust iterates `chars()`, i.e.
unicode scalar values, exactly Lean's `Char`).
-/

/-! ## Table layout engine (`src/tui/table.rs`) -/

/-- One styled span of a cell; only the visible text matters for layout. -/
abbrev Span := List Char

/-- `Cell`: ordered sequence of spans (`Cell { spans }` in `table.rs`). -/
structure Cell where
  spans : List Span
deriving DecidableEq

/-- `Cell::len`: sum of codepoint counts over the spans. -/
def Cell.len (c : Cell) : Nat :=
  (c.spans.map List.length).sum

/-- `Table`: a target width and ragged rows of cells. -/
structure Table where
  width : Nat
  rows : List (List Cell)
deriving DecidableEq

/-- `max_cols`: maximum row length across all rows (`unwrap_or(0)`). -/
def maxCols (rows : List (List Cell)) : Nat :=
  (rows.map List.length).foldr max 0

/-- One pass of the column-width accumulation loop:
`col_widths[i] = col_widths[i].max(cell.len())` for each cell of one row. -/
def updateWidths : List Nat → List Cell → List Nat
  | ws, [] => ws
  | [], _ => []
  | w :: ws, c :: cs => max w c.len :: updateWidths ws cs

/-- `col_widths` of `queue_table`: start from `vec![0; max_cols]` and fold
every row through the accumulation loop. -/
def colWidths (rows : List (List Cell)) : List Nat :=
  rows.foldl updateWidths (List.replicate (maxCols rows) 0)

/-- The span loop of `queue_table` for one cell: given the cell's end
position `cellEnd` and the running position, emit spans in order; a span
longer than the remaining space is cut to `remaining - 1` codepoints plus
an ellipsis and ends the cell.  When `remaining_space = 0` and a non-empty
span arrives, the source evaluates `remaining_space - 1` on `usize`,
which underflows (panics in debug builds); that abnormal outcome is
modelled as `none`. -/
def emitSpans (cellEnd : Nat) : Nat → List Span → Option (List Span × Nat)
  | pos, [] => some ([], pos)
  | pos, span :: rest =>
    let remaining := cellEnd - pos
    if span.length > remaining then
      if remaining = 0 then
        none
      else
        some ([span.take (remaining - 1) ++ ['…']], pos + remaining)
    else
      match emitSpans cellEnd (pos + span.length) rest with
      | none => none
      | some (out, p) => some (span :: out, p)

/-- One cell of `queue_table`: the span loop followed by the padding step
(`if cell_end_pos > pos { pad with spaces }`). -/
def emitCell (cellEnd pos : Nat) (c : Cell) : Option (List Span × Nat) :=
  match emitSpans cellEnd pos c.spans with
  | none => none
  | some (out, p) =>
    if cellEnd > p then some (out ++ [List.replicate (cellEnd - p) ' '], cellEnd)
    else some (out, p)

/-- The per-row column loop of `queue_table`, over cells paired with their
column widths: `col_width = col_widths[i] + CELL_SPACING`,
`cell_end_pos = (pos + col_width).min(table.width)`, and the row is cut
short (`break`) when `col_width >= MIN_COL_WIDTH && cell_width < MIN_COL_WIDTH`. -/
def emitRowAux (tableWidth : Nat) : Nat → List (Cell × Nat) → Option (List Span × Nat)
  | pos, [] => some ([], pos)
  | pos, (c, w) :: rest =>
    let colWidth := w + 2
    let cellEnd := min (pos + colWidth) tableWidth
    let cellWidth := cellEnd - pos
    if 3 ≤ colWidth ∧ cellWidth < 3 then
      some ([], pos)
    else
      match emitCell cellEnd pos c with
      | none => none
      | some (out, p) =>
        match emitRowAux tableWidth p rest with
        | none => none
        | some (out2, p2) => some (out ++ out2, p2)

/-- Render one row of the table: the column loop starting at position 0. -/
def queueRow (tableWidth : Nat) (widths : List Nat) (row : List Cell) : Option (List Span) :=
  match emitRowAux tableWidth 0 (row.zip widths) with
  | none => none
  | some (out, _) => some out

/-- `queue_table`: compute the column widths, then render every row.
The rendered output is the list of emitted spans per row (padding
included as space spans); `none` models a panic. -/
def queueTable (t : Table) : Option (List (List Span)) :=
  t.rows.mapM (queueRow t.width (colWidths t.rows))

/-! ## Process orchestrator (`src/parallel_run.rs`) -/

/-- A repository path (`PathBuf`), as its string of characters. -/
abbrev RepoPath := List Char

/-- `ProcessStatus` of `parallel_run.rs`. -/
inductive ProcessStatus where
  | Running
  | Finished (out : List Char)
  | Error (msg : List Char)
deriving DecidableEq

/-- The status map `ProcessStatuses = HashMap<PathBuf, ProcessStatus>`,
modelled as an association list with insert-replaces semantics. -/
abbrev ProcessStatuses := List (RepoPath × ProcessStatus)

/-- Map insertion: replace the binding of `k` if present, else append. -/
def alInsert (k : RepoPath) (v : ProcessStatus) : ProcessStatuses → ProcessStatuses
  | [] => [(k, v)]
  | (k', v') :: rest =>
    if k' = k then (k, v) :: rest else (k', v') :: alInsert k v rest

/-- Map lookup (`results.get(&path)`). -/
def alLookup (k : RepoPath) : ProcessStatuses → Option ProcessStatus
  | [] => none
  | (k', v') :: rest => if k' = k then some v' else alLookup k rest

/-- The keys of the status map. -/
def alKeys (m : ProcessStatuses) : List RepoPath :=
  m.map Prod.fst

/-- Result of `std::process::Command::output()`: exit success flag and the
captured output streams. -/
structure ProcOutput where
  success : Bool
  stdout : List Char
  stderr : List Char

/-- The worker's match on the spawn result (`parallel_run.rs` lines 52-63):
success ↦ `Finished(stdout)`, nonzero exit ↦ `Error(stderr)`,
spawn failure ↦ `Error(err.to_string())`. -/
def workerResult : Except (List Char) ProcOutput → ProcessStatus
  | .ok o => if o.success then .Finished o.stdout else .Error o.stderr
  | .error e => .Error e

/-- The status a worker sends for target `p`, given the ambient behaviour
`spawn` of process creation. -/
def runTarget (spawn : RepoPath → Except (List Char) ProcOutput) (p : RepoPath) :
    ProcessStatus :=
  workerResult (spawn p)

/-- The initial status map: `paths.iter().map(|p| (p, Running)).collect()`. -/
def initialResults (paths : List RepoPath) : ProcessStatuses :=
  paths.foldl (fun m p => alInsert p .Running m) []

/-- The consumer loop of `wait_for_results`: each received `(path, status)`
pair is stored with `results.insert`; `completions` is the channel's
arrival sequence, i.e. the workers' completion order. -/
def finalResults (paths : List RepoPath)
    (completions : List (RepoPath × ProcessStatus)) : ProcessStatuses :=
  completions.foldl (fun m r => alInsert r.1 r.2 m) (initialResults paths)

/-- Whether the final print loop emits a framed block for a status:
`Error` always, `Finished` only with non-empty output. -/
def shouldReport : ProcessStatus → Bool
  | .Error _ => true
  | .Finished out => decide (out ≠ [])
  | .Running => false

/-- The final print loop of `parallel_run` (lines 85-112): walk `paths` in
the original order and emit a framed block for `Error` results and for
non-empty `Finished` results. -/
def reportBlocks (paths : List RepoPath) (results : ProcessStatuses) :
    List (RepoPath × ProcessStatus) :=
  paths.filterMap fun p =>
    match alLookup p results with
    | some (.Error e) => some (p, .Error e)
    | some (.Finished out) => if out = [] then none else some (p, .Finished out)
    | _ => none

/-- The last binding of key `k` in an arrival sequence (the binding that
survives all the inserts). -/
def lookupLast (k : RepoPath) : List (RepoPath × ProcessStatus) → Option ProcessStatus
  | [] => none
  | (k', v) :: rest =>
    match lookupLast k rest with
    | some w => some w
    | none => if k = k' then some v else none

/-! ## Interactive selector (`src/command/context.rs`) -/

/-- `RepoConfig` of `config.rs`: a path and its visibility flag. -/
structure RepoConfig where
  path : List Char
  visible : Bool
deriving DecidableEq

/-- The key events the selector distinguishes.  Keys the source treats
identically (arrow up and `k`, …) share a constructor; `other` is any
further key code (`_ => {}`). -/
inductive Key where
  | up | down | left | right | space | plus | minus | enter | other
deriving DecidableEq

/-- Selector state: the cursor (`selected`) and the entry list. -/
structure SelState where
  selected : Nat
  repos : List RepoConfig
deriving DecidableEq

/-- One key dispatch of `event_loop` (`context.rs` lines 68-102). -/
def applyKey (repoCount pageSize : Nat) (st : SelState) : Key → SelState
  | .plus => { st with repos := st.repos.map fun r => { r with visible := true } }
  | .minus => { st with repos := st.repos.map fun r => { r with visible := false } }
  | .up => if st.selected > 0 then { st with selected := st.selected - 1 } else st
  | .down =>
    if st.selected < repoCount - 1 then { st with selected := st.selected + 1 } else st
  | .left =>
    if st.selected ≥ pageSize then { st with selected := st.selected - pageSize }
    else { st with selected := 0 }
  | .right => { st with selected := min (st.selected + pageSize) (repoCount - 1) }
  | .space =>
    match st.repos[st.selected]? with
    | some r => { st with repos := st.repos.set st.selected { r with visible := !r.visible } }
    | none => st
  | .enter => st
  | .other => st

/-- Iterated key dispatch: the selector state after a sequence of key
events. -/
def runKeys (repoCount pageSize : Nat) (st : SelState) (ks : List Key) : SelState :=
  ks.foldl (applyKey repoCount pageSize) st

/-- What one `event::read()` returns when it succeeds: a key event or any
other terminal event (`_ => {}`). -/
inductive UiEvent where
  | key (k : Key)
  | nonKey
deriving DecidableEq

/-- Terminal modes mutated by the selector: raw input mode and cursor
visibility. -/
structure TermState where
  rawMode : Bool
  cursorHidden : Bool
deriving DecidableEq

/-- One loop iteration's ambient behaviour: the result of `event::read()`
and whether the redraw's `flush()` succeeds. -/
structure LoopStep where
  read : Except (List Char) UiEvent
  flushOk : Bool

/-- How the event loop terminated. -/
inductive LoopExit where
  | entered
  | readFailed (msg : List Char)
  | flushFailed
deriving DecidableEq

/-- Observable outcome of `event_loop`: the exit kind, the terminal modes
on return, and the final selector state. -/
structure LoopResult where
  exit : LoopExit
  term : TermState
  selState : SelState

/-- State change of one successful `event::read()`: key events are
dispatched, any other event falls through (`_ => {}`). -/
def stepState (repoCount pageSize : Nat) (st : SelState) : UiEvent → SelState
  | .key k => applyKey repoCount pageSize st k
  | .nonKey => st

/-- The loop body of `event_loop`: a failing `event::read()?` returns at
once; `Enter` breaks and runs `disable_raw_mode(); cursor::Show`; any
other event is dispatched and followed by a redraw whose failing
`flush()?` also returns at once.  `none` = the input sequence ran out
while the loop was still blocked on `read`. -/
def eventLoopGo (repoCount pageSize : Nat) :
    SelState → TermState → List LoopStep → Option LoopResult
  | _, _, [] => none
  | st, term, step :: rest =>
    match step.read with
    | .error e => some ⟨.readFailed e, term, st⟩
    | .ok ev =>
      if ev = .key .enter then some ⟨.entered, ⟨false, false⟩, st⟩
      else if step.flushOk then
        eventLoopGo repoCount pageSize (stepState repoCount pageSize st ev) term rest
      else some ⟨.flushFailed, term, stepState repoCount pageSize st ev⟩

/-- `event_loop` (`context.rs` lines 56-114): hide the cursor, enable raw
mode, then run the loop from cursor 0. -/
def eventLoop (pageSize : Nat) (repos : List RepoConfig) (steps : List LoopStep) :
    Option LoopResult :=
  eventLoopGo repos.length pageSize ⟨0, repos⟩ ⟨true, true⟩ steps

/-- Observable outcome of `context_ui`: terminal modes and the entry list
handed to `config.write()` (`none` when the error return skipped it). -/
structure ContextOutcome where
  term : TermState
  persisted : Option (List RepoConfig)

/-- `context_ui` after the first draw: run `event_loop`; only when it
returns `Ok` does control reach `config.write()`. -/
def contextUi (pageSize : Nat) (repos : List RepoConfig) (steps : List LoopStep) :
    Option ContextOutcome :=
  match eventLoop pageSize repos steps with
  | none => none
  | some r =>
    match r.exit with
    | .entered => some ⟨r.term, some r.selState.repos⟩
    | _ => some ⟨r.term, none⟩

/-! ## Selector pagination (`queue_page_info` / `queue_repo_list`) -/

/-- `page_count = ((repo_count - 1) / page_size) + 1`. -/
def pageCount (repoCount pageSize : Nat) : Nat :=
  (repoCount - 1) / pageSize + 1

/-- `selected_page`/`page` `= selected / page_size`. -/
def pageOf (selected pageSize : Nat) : Nat :=
  selected / pageSize

/-- `page_start = page * page_size`. -/
def pageStart (selected pageSize : Nat) : Nat :=
  pageOf selected pageSize * pageSize

/-- `page_end = (page_start + page_size).min(repo_count)`. -/
def pageEnd (repoCount selected pageSize : Nat) : Nat :=
  min (pageStart selected pageSize + pageSize) repoCount

/-- The redrawn slice `&config.repositories[page_start..page_end]`. -/
def pageSlice (repos : List RepoConfig) (selected pageSize : Nat) : List RepoConfig :=
  (repos.drop (pageStart selected pageSize)).take
    (pageEnd repos.length selected pageSize - pageStart selected pageSize)

/-! ## Configuration persistence (`src/config.rs`) -/

/-- One line of `Config::write`: the path, `#`-prefixed when hidden. -/
def serializeRepo (r : RepoConfig) : List Char :=
  if r.visible then r.path else '#' :: r.path

/-- `Config::write`: one line per repository, joined with `"\n"`. -/
def configWrite (repos : List RepoConfig) : List Char :=
  List.intercalate ['\n'] (repos.map serializeRepo)

/-- Split at every `'\n'`; always returns one more piece than there are
newlines. -/
def splitNl (s : List Char) : List (List Char) :=
  s.splitOn '\n'

/-- Drop one trailing carriage return (the `\r` of a `\r\n` terminator). -/
def stripCr (l : List Char) : List Char :=
  if l.getLast? = some '\r' then l.dropLast else l

/-- Rust's `str::lines`: split at `'\n'`, strip the `'\r'` of newline-
terminated pieces (every piece but the last is newline-terminated), and
treat the final line ending as optional (a trailing empty piece yields no
line). -/
def rustLines (s : List Char) : List (List Char) :=
  match (splitNl s).getLast? with
  | none => (splitNl s).dropLast.map stripCr
  | some l =>
    if l = [] then (splitNl s).dropLast.map stripCr
    else (splitNl s).dropLast.map stripCr ++ [l]

/-- One line of `read` in `config.rs`: `strip_prefix("#")` marks a hidden
repository, anything else is visible. -/
def parseLine (l : List Char) : RepoConfig :=
  match l with
  | c :: rest => if c = '#' then ⟨rest, false⟩ else ⟨c :: rest, true⟩
  | [] => ⟨[], true⟩

/-- `read` of `config.rs` on the file's contents. -/
def configRead (s : List Char) : List RepoConfig :=
  (rustLines s).map parseLine

end GitLasso

namespace GitLasso

/-! ## Selector key handling: helper lemmas -/

/-- Every key dispatch keeps the cursor inside `[0, repoCount)`. -/
theorem applyKey_selected_lt (n P : Nat) (st : SelState) (k : Key)
    (hn : 1 ≤ n) (h : st.selected < n) : (applyKey n P st k).selected < n := by
  cases k with
  | up => dsimp [applyKey]; split <;> (try dsimp) <;> omega
  | down => dsimp [applyKey]; split <;> (try dsimp) <;> omega
  | left => dsimp [applyKey]; split <;> (try dsimp) <;> omega
  | right => dsimp [applyKey]; omega
  | space =>
    dsimp [applyKey]
    cases hx : st.repos[st.selected]? <;> simp [hx] <;> omega
  | plus => exact h
  | minus => exact h
  | enter => exact h
  | other => exact h

/-- The cursor invariant is preserved by every sequence of key events. -/
theorem runKeys_selected_lt (n P : Nat) (hn : 1 ≤ n) :
    ∀ (ks : List Key) (st : SelState), st.selected < n →
      (runKeys n P st ks).selected < n := by
  intro ks
  induction ks with
  | nil => intro st h; exact h
  | cons k ks ih =>
    intro st h
    exact ih _ (applyKey_selected_lt n P st k hn h)

/-- C7: in the selector's event loop over a non-empty entry list the
cursor always satisfies `0 ≤ cursor < count` (for every sequence of key
events starting inside the range, in particular from the initial cursor
0), and each key updates the state exactly as specified: up is
`max(cursor−1, 0)`, down is `min(cursor+1, count−1)`, left is
`max(cursor−pageSize, 0)`, right is `min(cursor+pageSize, count−1)`,
space toggles only the entry at the cursor, `+` makes every entry
visible and `-` makes every entry invisible. -/
theorem selector_key_semantics (P : Nat) (st : SelState)
    (hn : 1 ≤ st.repos.length) (hsel : st.selected < st.repos.length) :
    (((applyKey st.repos.length P st .up).selected : ℤ) =
        max ((st.selected : ℤ) - 1) 0) ∧
    (((applyKey st.repos.length P st .down).selected : ℤ) =
        min ((st.selected : ℤ) + 1) ((st.repos.length : ℤ) - 1)) ∧
    (((applyKey st.repos.length P st .left).selected : ℤ) =
        max ((st.selected : ℤ) - (P : ℤ)) 0) ∧
    (((applyKey st.repos.length P st .right).selected : ℤ) =
        min ((st.selected : ℤ) + (P : ℤ)) ((st.repos.length : ℤ) - 1)) ∧
    ((applyKey st.repos.length P st .space).repos.length = st.repos.length) ∧
    (∀ i, i ≠ st.selected →
      (applyKey st.repos.length P st .space).repos[i]? = st.repos[i]?) ∧
    ((applyKey st.repos.length P st .space).repos[st.selected]? =
      (st.repos[st.selected]?).map fun r => ⟨r.path, !r.visible⟩) ∧
    ((applyKey st.repos.length P st .plus).repos =
      st.repos.map fun r => ⟨r.path, true⟩) ∧
    ((applyKey st.repos.length P st .minus).repos =
      st.repos.map fun r => ⟨r.path, false⟩) ∧
    (∀ ks : List Key,
      (runKeys st.repos.length P st ks).selected < st.repos.length) := by
  obtain ⟨r, hr⟩ : ∃ r, st.repos[st.selected]? = some r :=
    ⟨st.repos[st.selected], List.getElem?_eq_getElem hsel⟩
  refine ⟨?_, ?_, ?_, ?_, ?_, ?_, ?_, rfl, rfl, ?_⟩
  · dsimp [applyKey]; split <;> (try dsimp) <;> omega
  · dsimp [applyKey]; split <;> (try dsimp) <;> omega
  · dsimp [applyKey]; split <;> (try dsimp) <;> omega
  · dsimp [applyKey]; omega
  · simp [applyKey, hr]
  · intro i hi
    simp only [applyKey, hr]
    exact List.getElem?_set_ne (fun h => hi h.symm)
  · simp only [applyKey, hr]
    rw [List.getElem?_set_self hsel]
    rfl
  · intro ks
    exact runKeys_selected_lt _ P hn ks st hsel

/-- Witness for C7 at a concrete state: three entries, cursor 1, page
size 2. -/
theorem selector_key_semantics_witness :
    (1 ≤ ([⟨['a'], true⟩, ⟨['b'], false⟩, ⟨['c'], true⟩] : List RepoConfig).length ∧
      (1 : Nat) < ([⟨['a'], true⟩, ⟨['b'], false⟩, ⟨['c'], true⟩] : List RepoConfig).length) ∧
    (((applyKey 3 2 ⟨1, [⟨['a'], true⟩, ⟨['b'], false⟩, ⟨['c'], true⟩]⟩ .up).selected : ℤ) =
        max ((1 : ℤ) - 1) 0) :=
  ⟨⟨by decide, by decide⟩,
    (selector_key_semantics 2 ⟨1, [⟨['a'], true⟩, ⟨['b'], false⟩, ⟨['c'], true⟩]⟩
      (by decide) (by decide)).1⟩

/-! ## Selector pagination (C8) -/

/-- C8: for `n ≥ 1` entries and page size `P ≥ 1`, the page count is
`⌈n/P⌉ = (n+P−1)/P`, the entry at cursor index `i` lies inside its page's
slice, and the slice redrawn for the page of `i` is exactly
`[page·P, min(page·P+P, n))` of the entry list. -/
theorem selector_pagination (repos : List RepoConfig) (P i : Nat)
    (hP : 1 ≤ P) (hi : i < repos.length) :
    pageCount repos.length P = (repos.length + P - 1) / P ∧
    pageStart i P ≤ i ∧
    i < pageEnd repos.length i P ∧
    (pageSlice repos i P).length = pageEnd repos.length i P - pageStart i P ∧
    (∀ j, (pageSlice repos i P)[j]? =
      if pageStart i P + j < pageEnd repos.length i P
      then repos[pageStart i P + j]? else none) ∧
    (pageSlice repos i P)[i - pageStart i P]? = repos[i]? := by
  have hn : 1 ≤ repos.length := Nat.lt_of_le_of_lt (Nat.zero_le i) hi
  have hs : pageStart i P ≤ i := Nat.div_mul_le_self i P
  have hs2 : i < pageStart i P + P := Nat.lt_div_mul_add hP
  have helem : ∀ j, (pageSlice repos i P)[j]? =
      if pageStart i P + j < pageEnd repos.length i P
      then repos[pageStart i P + j]? else none := by
    intro j
    unfold pageSlice
    rw [List.getElem?_take, List.getElem?_drop]
    unfold pageEnd
    split
    · split
      · rfl
      · omega
    · split
      · omega
      · rfl
  refine ⟨?_, hs, ?_, ?_, helem, ?_⟩
  · unfold pageCount
    have h2 : repos.length + P - 1 = repos.length - 1 + P := by omega
    rw [h2, Nat.add_div_right _ hP]
  · unfold pageEnd
    omega
  · unfold pageSlice
    rw [List.length_take, List.length_drop]
    unfold pageEnd
    omega
  · rw [helem (i - pageStart i P)]
    have h3 : pageStart i P + (i - pageStart i P) = i := by omega
    rw [h3]
    unfold pageEnd
    split
    · rfl
    · omega

/-- Witness for C8: five entries, page size 2, cursor 3 (page 1, slice
`[2, 4)`). -/
theorem selector_pagination_witness :
    ((1 : Nat) ≤ 2 ∧ (3 : Nat) <
      ([⟨['a'], true⟩, ⟨['b'], true⟩, ⟨['c'], true⟩, ⟨['d'], true⟩,
        ⟨['e'], true⟩] : List RepoConfig).length) ∧
    pageCount 5 2 = (5 + 2 - 1) / 2 :=
  ⟨⟨by decide, by decide⟩,
    (selector_pagination
      [⟨['a'], true⟩, ⟨['b'], true⟩, ⟨['c'], true⟩, ⟨['d'], true⟩, ⟨['e'], true⟩]
      2 3 (by decide) (by decide)).1⟩

/-! ## Configuration round-trip (C10) -/

/-- A serialized line is never empty when the path is non-empty. -/
theorem serializeRepo_ne_nil (r : RepoConfig) (h : r.path ≠ []) :
    serializeRepo r ≠ [] := by
  unfold serializeRepo
  split
  · exact h
  · simp

/-- A serialized line contains no newline when the path contains none. -/
theorem newline_not_mem_serializeRepo (r : RepoConfig) (h : '\n' ∉ r.path) :
    '\n' ∉ serializeRepo r := by
  unfold serializeRepo
  split
  · exact h
  · intro hm
    rcases List.mem_cons.mp hm with h1 | h1
    · exact absurd h1 (by decide)
    · exact h h1

/-- `stripCr` leaves a serialized line unchanged when the path does not
end in a carriage return. -/
theorem stripCr_serializeRepo (r : RepoConfig) (hne : r.path ≠ [])
    (hcr : r.path.getLast? ≠ some '\r') :
    stripCr (serializeRepo r) = serializeRepo r := by
  have h2 : (serializeRepo r).getLast? ≠ some '\r' := by
    unfold serializeRepo
    split
    · exact hcr
    · cases hp : r.path with
      | nil => exact absurd hp hne
      | cons a l =>
        rw [hp] at hcr
        rw [List.getLast?_cons_cons]
        exact hcr
  unfold stripCr
  rw [if_neg h2]

/-- Parsing inverts serialization for one entry, provided the path is
non-empty and does not begin with `'#'`. -/
theorem parseLine_serializeRepo (r : RepoConfig) (hne : r.path ≠ [])
    (hhd : r.path.head? ≠ some '#') : parseLine (serializeRepo r) = r := by
  obtain ⟨path, visible⟩ := r
  cases visible
  · cases path with
    | nil => simp [serializeRepo, parseLine]
    | cons c cs => simp [serializeRepo, parseLine]
  · cases path with
    | nil => exact absurd rfl hne
    | cons c cs =>
      have hc : c ≠ '#' := by
        intro hcq
        exact hhd (by rw [hcq]; rfl)
      simp [serializeRepo, parseLine, hc]

/-- `str::lines` recovers exactly the serialized lines of a non-empty
repository list whose paths are non-empty, newline-free and do not end
in a carriage return. -/
theorem rustLines_configWrite (repos : List RepoConfig) (hrep : repos ≠ [])
    (h : ∀ r ∈ repos, r.path ≠ [] ∧ '\n' ∉ r.path ∧ r.path.getLast? ≠ some '\r') :
    rustLines (configWrite repos) = repos.map serializeRepo := by
  have hx : ∀ l ∈ repos.map serializeRepo, '\n' ∉ l := by
    intro l hl
    obtain ⟨r, hr, rfl⟩ := List.mem_map.mp hl
    exact newline_not_mem_serializeRepo r (h r hr).2.1
  have hls : repos.map serializeRepo ≠ [] := by simpa using hrep
  have hsplit : splitNl (configWrite repos) = repos.map serializeRepo := by
    unfold splitNl configWrite
    exact List.splitOn_intercalate (repos.map serializeRepo) '\n' hx hls
  have hlast : (repos.map serializeRepo).getLast? =
      some ((repos.map serializeRepo).getLast hls) :=
    List.getLast?_eq_getLast _ hls
  have hlastne : (repos.map serializeRepo).getLast hls ≠ [] := by
    obtain ⟨r, hr, heq⟩ := List.mem_map.mp (List.getLast_mem hls)
    rw [← heq]
    exact serializeRepo_ne_nil r (h r hr).1
  have hstrip : (repos.map serializeRepo).dropLast.map stripCr =
      (repos.map serializeRepo).dropLast := by
    have hid : ∀ p ∈ (repos.map serializeRepo).dropLast, stripCr p = p := by
      intro p hp
      have hp2 : p ∈ repos.map serializeRepo :=
        (List.dropLast_sublist (repos.map serializeRepo)).subset hp
      obtain ⟨r, hr, rfl⟩ := List.mem_map.mp hp2
      exact stripCr_serializeRepo r (h r hr).1 (h r hr).2.2
    rw [List.map_congr_left hid, List.map_id']
  unfold rustLines
  rw [hsplit, hlast]
  dsimp only
  rw [if_neg hlastne, hstrip]
  exact List.dropLast_append_getLast? _ hlast

/-- C10 counterexample: a single repository whose path is the empty
string (which contains no newline and does not begin with `'#'`)
serializes to the empty file, which parses back to the empty list, not
to the original one-entry list. -/
theorem config_round_trip_counterexample :
    (('\n' ∉ ([] : List Char)) ∧ (([] : List Char).head? ≠ some '#')) ∧
    configRead (configWrite [⟨[], true⟩]) = [] ∧
    ([] : List RepoConfig) ≠ [⟨[], true⟩] := by decide

/-- C10 (amended): serialization followed by parsing is the identity on
every repository list whose paths are non-empty, contain no newline, do
not end in a carriage return, and do not begin with `'#'`. -/
theorem config_round_trip (repos : List RepoConfig)
    (h : ∀ r ∈ repos, r.path ≠ [] ∧ '\n' ∉ r.path ∧
      r.path.getLast? ≠ some '\r' ∧ r.path.head? ≠ some '#') :
    configRead (configWrite repos) = repos := by
  by_cases hrep : repos = []
  · subst hrep
    decide
  · unfold configRead
    rw [rustLines_configWrite repos hrep
      (fun r hr => ⟨(h r hr).1, (h r hr).2.1, (h r hr).2.2.1⟩)]
    rw [List.map_map]
    have hid : ∀ r ∈ repos, (parseLine ∘ serializeRepo) r = id r := fun r hr =>
      parseLine_serializeRepo r (h r hr).1 (h r hr).2.2.2
    rw [List.map_congr_left hid]
    exact List.map_id _

/-! ## Selector exit paths (C4) -/

/-- The loop leaves the terminal modes exactly as the exit path does:
`Enter` runs the cleanup, every error return leaves them as the loop
found them. -/
theorem eventLoopGo_exit_term (n P : Nat) :
    ∀ (steps : List LoopStep) (st : SelState) (term : TermState) (r : LoopResult),
      eventLoopGo n P st term steps = some r →
      (r.exit = LoopExit.entered → r.term = ⟨false, false⟩) ∧
      (r.exit ≠ LoopExit.entered → r.term = term) := by
  intro steps
  induction steps with
  | nil =>
    intro st term r h
    simp [eventLoopGo] at h
  | cons step rest ih =>
    intro st term r h
    obtain ⟨read, flushOk⟩ := step
    cases read with
    | error e =>
      simp only [eventLoopGo, Option.some.injEq] at h
      subst h
      exact ⟨fun h0 => absurd h0 (by simp), fun _ => rfl⟩
    | ok ev =>
      simp only [eventLoopGo] at h
      by_cases hev : ev = UiEvent.key Key.enter
      · rw [if_pos hev] at h
        obtain rfl := Option.some.inj h
        exact ⟨fun _ => rfl, fun h0 => absurd rfl h0⟩
      · rw [if_neg hev] at h
        cases flushOk with
        | true =>
          rw [if_pos rfl] at h
          exact ih _ term r h
        | false =>
          rw [if_neg (by simp)] at h
          obtain rfl := Option.some.inj h
          exact ⟨fun h0 => absurd h0 (by simp), fun _ => rfl⟩

/-- C4 counterexample: a failing `event::read()` makes the loop return
with raw mode still enabled and the cursor still hidden, and
`config.write()` is never reached — the claim's unconditional cleanup
does not hold on this error path. -/
theorem selector_cleanup_counterexample :
    contextUi 1 [⟨['a'], true⟩] [⟨Except.error ['e'], true⟩] =
      some ⟨⟨true, true⟩, none⟩ ∧
    (⟨true, true⟩ : TermState) ≠ ⟨false, false⟩ :=
  ⟨rfl, by decide⟩

/-- C4 (amended): on the normal exit path (enter) raw mode is disabled,
the cursor is restored and the mutated entry list is handed to
persistence; on every error exit path (failed read or failed flush) the
error propagates with raw mode still enabled and the cursor still
hidden, and nothing is persisted. -/
theorem selector_exit_cleanup (P : Nat) (repos : List RepoConfig)
    (steps : List LoopStep) (r : LoopResult)
    (h : eventLoop P repos steps = some r) :
    (r.exit = LoopExit.entered →
      r.term = ⟨false, false⟩ ∧
      contextUi P repos steps = some ⟨⟨false, false⟩, some r.selState.repos⟩) ∧
    (r.exit ≠ LoopExit.entered →
      r.term = ⟨true, true⟩ ∧
      contextUi P repos steps = some ⟨⟨true, true⟩, none⟩) := by
  have hg := eventLoopGo_exit_term repos.length P steps ⟨0, repos⟩ ⟨true, true⟩ r h
  obtain ⟨ex, term, sst⟩ := r
  constructor
  · intro he
    dsimp at he
    subst he
    have ht := hg.1 rfl
    dsimp at ht
    subst ht
    refine ⟨rfl, ?_⟩
    unfold contextUi
    rw [h]
  · intro he
    have ht := hg.2 he
    dsimp at ht
    subst ht
    refine ⟨rfl, ?_⟩
    unfold contextUi
    rw [h]
    dsimp at he ⊢
    cases ex with
    | entered => exact absurd rfl he
    | readFailed e => rfl
    | flushFailed => rfl

/-- Witness for C4 at a concrete run: one entry, a single `Enter` key. -/
theorem selector_exit_cleanup_witness :
    (eventLoop 1 [⟨['a'], true⟩] [⟨Except.ok (UiEvent.key Key.enter), true⟩] =
      some ⟨LoopExit.entered, ⟨false, false⟩, ⟨0, [⟨['a'], true⟩]⟩⟩) ∧
    ((LoopExit.entered = LoopExit.entered →
      (⟨false, false⟩ : TermState) = ⟨false, false⟩ ∧
      contextUi 1 [⟨['a'], true⟩] [⟨Except.ok (UiEvent.key Key.enter), true⟩] =
        some ⟨⟨false, false⟩, some [⟨['a'], true⟩]⟩) ∧
    (LoopExit.entered ≠ LoopExit.entered →
      (⟨false, false⟩ : TermState) = ⟨true, true⟩ ∧
      contextUi 1 [⟨['a'], true⟩] [⟨Except.ok (UiEvent.key Key.enter), true⟩] =
        some ⟨⟨true, true⟩, none⟩)) :=
  ⟨rfl, selector_exit_cleanup 1 [⟨['a'], true⟩]
    [⟨Except.ok (UiEvent.key Key.enter), true⟩]
    ⟨LoopExit.entered, ⟨false, false⟩, ⟨0, [⟨['a'], true⟩]⟩⟩ rfl⟩

/-- Witness for C10 at a concrete list: one visible and one hidden
repository. -/
theorem config_round_trip_witness :
    (∀ r ∈ ([⟨['a'], true⟩, ⟨['b'], false⟩] : List RepoConfig),
      r.path ≠ [] ∧ '\n' ∉ r.path ∧ r.path.getLast? ≠ some '\r' ∧
        r.path.head? ≠ some '#') ∧
    configRead (configWrite [⟨['a'], true⟩, ⟨['b'], false⟩]) =
      [⟨['a'], true⟩, ⟨['b'], false⟩] :=
  ⟨by decide, config_round_trip _ (by decide)⟩

/-! ## Table layout engine: span truncation (C2, C9) -/

/-- C9: the span-truncation step is not total.  On a table of width 3
whose single cell has spans `["abc", "d"]` the first span exactly fills
the cell's budget, so the second span is processed with
`remaining_space = 0`; the source then evaluates `remaining_space - 1`
on `usize`, which underflows (a panic in debug builds), modelled as
`none`.  The second conjunct pins the underflow to the span loop itself. -/
theorem table_underflow_failing_input :
    queueTable ⟨3, [[⟨[['a', 'b', 'c'], ['d']]⟩]]⟩ = none ∧
    emitSpans 3 3 [['d']] = none := by decide

/-- C2 counterexample: the cell `["abcd", "e"]` in a cell budget of
`W = 4 ≥ 3` has visible length `5 > 4`, yet the engine does not render
`W` columns ending in an ellipsis — the first span exactly fills the
budget and the cut of the second span underflows (`none`), so nothing
at all is rendered for this cell. -/
theorem cell_truncation_counterexample :
    ((3 : Nat) ≤ 4 ∧ 4 < (Cell.mk [['a', 'b', 'c', 'd'], ['e']]).len) ∧
    emitCell 4 0 ⟨[['a', 'b', 'c', 'd'], ['e']]⟩ = none := by decide

/-- The span loop on a cell whose content overflows the remaining budget
`cellEnd - pos`, when no prefix of spans fills the budget exactly: it
stops at the cut span, ends at `cellEnd`, and the emitted text is the
first `budget − 1` codepoints followed by one ellipsis. -/
theorem emitSpans_cut (cellEnd : Nat) :
    ∀ (spans : List Span) (pos : Nat),
      pos < cellEnd →
      cellEnd - pos < (spans.map List.length).sum →
      (∀ k, k < spans.length →
        ((spans.take k).map List.length).sum ≠ cellEnd - pos) →
      ∃ outInit cut,
        emitSpans cellEnd pos spans = some (outInit ++ [cut], cellEnd) ∧
        (outInit ++ [cut]).flatten =
          spans.flatten.take (cellEnd - pos - 1) ++ ['…'] ∧
        cut.getLast? = some '…' := by
  intro spans
  induction spans with
  | nil =>
    intro pos hpos hlen hpre
    simp at hlen
  | cons span rest ih =>
    intro pos hpos hlen hpre
    simp only [List.map_cons, List.sum_cons] at hlen
    by_cases hcut : span.length > cellEnd - pos
    · have hrem : ¬(cellEnd - pos = 0) := by omega
      refine ⟨[], span.take (cellEnd - pos - 1) ++ ['…'], ?_, ?_, ?_⟩
      · simp only [emitSpans]
        rw [if_pos hcut, if_neg hrem]
        have hp2 : pos + (cellEnd - pos) = cellEnd := by omega
        rw [hp2]
        rfl
      · simp only [List.nil_append, List.flatten_cons, List.flatten_nil,
          List.append_nil]
        rw [List.take_append_of_le_length (by omega)]
      · exact List.getLast?_concat _
    · push_neg at hcut
      have hne : span.length ≠ cellEnd - pos := by
        cases rest with
        | nil => simp at hlen; omega
        | cons b bs =>
          have h1 := hpre 1 (by simp)
          simpa using h1
      have hlt : span.length < cellEnd - pos := by omega
      have hlen2 : cellEnd - (pos + span.length) < (rest.map List.length).sum := by
        omega
      have hpre2 : ∀ k, k < rest.length →
          ((rest.take k).map List.length).sum ≠ cellEnd - (pos + span.length) := by
        intro k hk
        have h1 := hpre (k + 1) (by simpa using Nat.succ_lt_succ hk)
        simp only [List.take_succ_cons, List.map_cons, List.sum_cons] at h1
        omega
      obtain ⟨outInit, cut, he, hj, hl⟩ := ih (pos + span.length) (by omega) hlen2 hpre2
      refine ⟨span :: outInit, cut, ?_, ?_, hl⟩
      · simp only [emitSpans]
        rw [if_neg (by omega), he]
        rfl
      · simp only [List.cons_append, List.flatten_cons] at hj ⊢
        rw [hj, List.take_append_eq_append_take,
          List.take_of_length_le (l := span) (by omega)]
        have h3 : cellEnd - pos - 1 - span.length =
            cellEnd - (pos + span.length) - 1 := by
          omega
        rw [h3, List.append_assoc]

/-- C2 (amended): a cell whose visible length exceeds its assigned
budget `W ≥ 3` renders as exactly `W` visible columns — its first `W−1`
codepoints followed by a single ellipsis, with nothing emitted after the
cut span — provided no proper prefix of its spans fills the budget
exactly (in that remaining case the cut underflows, see the C9
finding). -/
theorem cell_truncation (c : Cell) (pos W : Nat) (h3 : 3 ≤ W) (hL : W < c.len)
    (hpre : ∀ k, k < c.spans.length →
      ((c.spans.take k).map List.length).sum ≠ W) :
    ∃ outInit cut,
      emitCell (pos + W) pos c = some (outInit ++ [cut], pos + W) ∧
      (outInit ++ [cut]).flatten = c.spans.flatten.take (W - 1) ++ ['…'] ∧
      cut.getLast? = some '…' := by
  have hW : pos + W - pos = W := by omega
  obtain ⟨outInit, cut, he, hj, hl⟩ :=
    emitSpans_cut (pos + W) c.spans pos (by omega)
      (by rw [hW]; exact hL) (by rw [hW]; exact hpre)
  refine ⟨outInit, cut, ?_, ?_, hl⟩
  · unfold emitCell
    rw [he]
    dsimp only
    rw [if_neg (by omega)]
  · rw [hW] at hj
    exact hj

/-- Witness for C2 at a concrete cell: spans `["ab", "cde"]`, budget 4,
rendered as `"abc…"`. -/
theorem cell_truncation_witness :
    ((3 : Nat) ≤ 4 ∧ 4 < (Cell.mk [['a', 'b'], ['c', 'd', 'e']]).len ∧
      (∀ k, k < (Cell.mk [['a', 'b'], ['c', 'd', 'e']]).spans.length →
        (((Cell.mk [['a', 'b'], ['c', 'd', 'e']]).spans.take k).map
          List.length).sum ≠ 4)) ∧
    ∃ outInit cut,
      emitCell (0 + 4) 0 ⟨[['a', 'b'], ['c', 'd', 'e']]⟩ =
        some (outInit ++ [cut], 0 + 4) ∧
      (outInit ++ [cut]).flatten =
        (Cell.mk [['a', 'b'], ['c', 'd', 'e']]).spans.flatten.take (4 - 1) ++
          ['…'] ∧
      cut.getLast? = some '…' :=
  ⟨⟨by decide, by decide, by decide⟩,
    cell_truncation ⟨[['a', 'b'], ['c', 'd', 'e']]⟩ 0 4
      (by decide) (by decide) (by decide)⟩

/-! ## Table layout engine: minimum column width (C3) -/

/-- C3 counterexample: in a width-10 table with rows
`[[Cell[""], Cell["x"]]]` the first column's clipped span is `0 + 2 = 2`,
below the minimum width 3, yet the row does not stop there — the second
column (`"x"` plus padding) is still rendered, because the source only
breaks when the column's natural span `col_width` is itself at least 3. -/
theorem row_break_counterexample :
    colWidths [[⟨[[]]⟩, ⟨[['x']]⟩]] = [0, 1] ∧
    min (0 + (0 + 2)) 10 - 0 < 3 ∧
    queueTable ⟨10, [[⟨[[]]⟩, ⟨[['x']]⟩]]⟩ =
      some [[[], [' ', ' '], ['x'], [' ', ' ']]] := by decide

/-- C3 (amended): whenever the rendering of a row reaches a column whose
natural span `col_width = width + 2` is at least 3 while its clipped
span falls below 3, the row stops there: that column and every later
cell are omitted, leaving exactly the output of the preceding columns.
(A column whose natural span is below 3 — an all-empty column — does not
stop the row.) -/
theorem row_min_width_break (w : Nat) (pre : List (Cell × Nat)) (c : Cell)
    (cw : Nat) (rest : List (Cell × Nat)) (out : List Span) (pos0 pos : Nat)
    (hpre : emitRowAux w pos0 pre = some (out, pos))
    (hnat : 3 ≤ cw + 2)
    (hclip : min (pos + (cw + 2)) w - pos < 3) :
    emitRowAux w pos0 (pre ++ (c, cw) :: rest) = some (out, pos) := by
  induction pre generalizing pos0 out with
  | nil =>
    simp only [emitRowAux, Option.some.injEq, Prod.mk.injEq] at hpre
    obtain ⟨rfl, rfl⟩ := hpre
    simp only [List.nil_append, emitRowAux]
    rw [if_pos ⟨hnat, hclip⟩]
  | cons a pre' ih =>
    obtain ⟨c0, w0⟩ := a
    simp only [List.cons_append, emitRowAux] at hpre ⊢
    by_cases hbr : 3 ≤ w0 + 2 ∧ min (pos0 + (w0 + 2)) w - pos0 < 3
    · rw [if_pos hbr] at hpre ⊢
      exact hpre
    · rw [if_neg hbr] at hpre ⊢
      cases hc : emitCell (min (pos0 + (w0 + 2)) w) pos0 c0 with
      | none => rw [hc] at hpre; simp at hpre
      | some op =>
        obtain ⟨o, p⟩ := op
        rw [hc] at hpre
        dsimp only at hpre ⊢
        cases hr : emitRowAux w p pre' with
        | none => rw [hr] at hpre; simp at hpre
        | some op2 =>
          obtain ⟨o2, p2⟩ := op2
          rw [hr] at hpre
          simp only [Option.some.injEq, Prod.mk.injEq] at hpre
          obtain ⟨rfl, rfl⟩ := hpre
          simp only [List.append_eq]
          rw [ih o2 p hr]

/-! ## Orchestrator: status map lemmas -/

/-- Lookup after insert: the inserted key reads back the inserted value,
any other key is untouched. -/
theorem alLookup_alInsert (k k' : RepoPath) (v : ProcessStatus)
    (m : ProcessStatuses) :
    alLookup k (alInsert k' v m) = if k' = k then some v else alLookup k m := by
  induction m with
  | nil => by_cases h : k' = k <;> simp [alInsert, alLookup, h]
  | cons e rest ih =>
    obtain ⟨k2, v2⟩ := e
    by_cases h2 : k2 = k'
    · subst h2
      by_cases h3 : k2 = k <;> simp [alInsert, alLookup, h3]
    · by_cases h3 : k2 = k
      · subst h3
        have h4 : ¬(k' = k2) := fun he => h2 he.symm
        simp [alInsert, alLookup, h2, h4]
      · simp [alInsert, alLookup, h2, h3, ih]

/-- Inserting a key already present leaves the key list unchanged. -/
theorem alKeys_alInsert (k : RepoPath) (v : ProcessStatus)
    (m : ProcessStatuses) (h : k ∈ alKeys m) :
    alKeys (alInsert k v m) = alKeys m := by
  induction m with
  | nil => cases h
  | cons e rest ih =>
    obtain ⟨k2, v2⟩ := e
    by_cases h2 : k2 = k
    · subst h2
      unfold alInsert
      rw [if_pos rfl]
      rfl
    · have h3 : k ∈ alKeys rest := by
        rcases List.mem_cons.mp (show k ∈ k2 :: alKeys rest from h) with he | hm
        · exact absurd he.symm h2
        · exact hm
      unfold alInsert
      rw [if_neg h2]
      show k2 :: alKeys (alInsert k v rest) = k2 :: alKeys rest
      rw [ih h3]

/-- Inserting a fresh key appends the binding. -/
theorem alInsert_fresh (k : RepoPath) (v : ProcessStatus)
    (m : ProcessStatuses) (h : k ∉ alKeys m) :
    alInsert k v m = m ++ [(k, v)] := by
  induction m with
  | nil => rfl
  | cons e rest ih =>
    obtain ⟨k2, v2⟩ := e
    have h1 : ¬(k = k2) :=
      fun he => h (show k ∈ k2 :: alKeys rest from List.mem_cons.mpr (Or.inl he))
    have h2 : k ∉ alKeys rest :=
      fun hm => h (show k ∈ k2 :: alKeys rest from List.mem_cons.mpr (Or.inr hm))
    unfold alInsert
    rw [if_neg (fun he => h1 he.symm), ih h2]
    rfl

/-- Collecting `(p, Running)` pairs for distinct fresh paths appends them
all in order. -/
theorem foldl_insert_running (paths : List RepoPath) :
    ∀ (m : ProcessStatuses), paths.Nodup → (∀ p ∈ paths, p ∉ alKeys m) →
      paths.foldl (fun m p => alInsert p .Running m) m
        = m ++ paths.map (fun p => (p, ProcessStatus.Running)) := by
  induction paths with
  | nil => intro m _ _; simp
  | cons p rest ih =>
    intro m hnd hfresh
    have hkeysapp : alKeys (m ++ [(p, ProcessStatus.Running)]) = alKeys m ++ [p] := by
      simp [alKeys]
    have hfresh2 : ∀ q ∈ rest, q ∉ alKeys (m ++ [(p, ProcessStatus.Running)]) := by
      intro q hq hmem
      rw [hkeysapp] at hmem
      rcases List.mem_append.mp hmem with hm | hm
      · exact hfresh q (List.mem_cons.mpr (Or.inr hq)) hm
      · have hqp : q = p := by simpa using hm
        subst hqp
        exact (List.nodup_cons.mp hnd).1 hq
    simp only [List.foldl_cons]
    rw [alInsert_fresh p ProcessStatus.Running m (hfresh p (List.mem_cons_self p rest))]
    rw [ih (m ++ [(p, ProcessStatus.Running)]) (List.nodup_cons.mp hnd).2 hfresh2]
    simp

/-- For distinct paths, the initial status map is one `Running` entry per
path, in order. -/
theorem initialResults_eq (paths : List RepoPath) (h : paths.Nodup) :
    initialResults paths = paths.map (fun p => (p, ProcessStatus.Running)) := by
  unfold initialResults
  simpa using foldl_insert_running paths [] h (fun p _ hm => by cases hm)

/-- The initial status map's keys are exactly the paths. -/
theorem alKeys_initialResults (paths : List RepoPath) (h : paths.Nodup) :
    alKeys (initialResults paths) = paths := by
  rw [initialResults_eq paths h]
  show List.map Prod.fst (List.map (fun p => (p, ProcessStatus.Running)) paths) = paths
  rw [List.map_map]
  exact List.map_id'' (fun _ => rfl) paths

/-- Inserting only already-present keys never changes the key list. -/
theorem alKeys_foldl_insert (l : List (RepoPath × ProcessStatus)) :
    ∀ (m : ProcessStatuses), (∀ r ∈ l, r.1 ∈ alKeys m) →
      alKeys (l.foldl (fun m r => alInsert r.1 r.2 m) m) = alKeys m := by
  induction l with
  | nil => intro m _; rfl
  | cons r rest ih =>
    intro m h
    simp only [List.foldl_cons]
    have hk := alKeys_alInsert r.1 r.2 m (h r (by simp))
    rw [ih (alInsert r.1 r.2 m) ?_, hk]
    intro q hq
    rw [hk]
    exact h q (by simp [hq])

/-- The surviving binding found by `lookupLast` is a binding of the list. -/
theorem lookupLast_mem (k : RepoPath) (l : List (RepoPath × ProcessStatus))
    (w : ProcessStatus) (h : lookupLast k l = some w) : (k, w) ∈ l := by
  induction l with
  | nil => simp [lookupLast] at h
  | cons r rest ih =>
    obtain ⟨k2, v2⟩ := r
    simp only [lookupLast] at h
    cases h2 : lookupLast k rest with
    | some w2 =>
      rw [h2] at h
      obtain rfl := Option.some.inj h
      exact List.mem_cons_of_mem _ (ih h2)
    | none =>
      rw [h2] at h
      dsimp only at h
      by_cases h3 : k = k2
      · rw [if_pos h3] at h
        obtain rfl := Option.some.inj h
        subst h3
        exact List.mem_cons_self _ _
      · rw [if_neg h3] at h
        cases h

/-- A key bound somewhere in the list is found by `lookupLast`. -/
theorem lookupLast_isSome (k : RepoPath) (v : ProcessStatus)
    (l : List (RepoPath × ProcessStatus)) (h : (k, v) ∈ l) :
    ∃ w, lookupLast k l = some w := by
  induction l with
  | nil => cases h
  | cons r rest ih =>
    obtain ⟨k2, v2⟩ := r
    simp only [lookupLast]
    cases h2 : lookupLast k rest with
    | some w2 => exact ⟨w2, rfl⟩
    | none =>
      rcases List.mem_cons.mp h with he | hm
      · obtain ⟨rfl, rfl⟩ := Prod.mk.injEq .. |>.mp he
        rw [if_pos rfl]
        exact ⟨v, rfl⟩
      · obtain ⟨w, hw⟩ := ih hm
        rw [hw] at h2
        cases h2

/-- Lookup after replaying an arrival sequence over a map: the sequence's
last binding for the key wins, else the map's binding. -/
theorem alLookup_foldl_insert (l : List (RepoPath × ProcessStatus)) :
    ∀ (m : ProcessStatuses) (k : RepoPath),
      alLookup k (l.foldl (fun m r => alInsert r.1 r.2 m) m)
        = match lookupLast k l with
          | some w => some w
          | none => alLookup k m := by
  induction l with
  | nil => intro m k; rfl
  | cons r rest ih =>
    intro m k
    obtain ⟨k2, v2⟩ := r
    simp only [List.foldl_cons, lookupLast]
    rw [ih]
    cases h2 : lookupLast k rest with
    | some w => rfl
    | none =>
      dsimp only
      rw [alLookup_alInsert]
      by_cases h3 : k2 = k
      · subst h3
        simp
      · rw [if_neg h3, if_neg (fun he => h3 he.symm)]

/-- Completion sequences carry the value determined by the key: each
worker sends exactly its own target's outcome. -/
theorem completions_value (paths : List RepoPath)
    (spawn : RepoPath → Except (List Char) ProcOutput)
    (completions : List (RepoPath × ProcessStatus))
    (hperm : completions.Perm (paths.map fun p => (p, runTarget spawn p))) :
    ∀ r ∈ completions, r.2 = runTarget spawn r.1 := by
  intro r hr
  obtain ⟨p, _, he⟩ := List.mem_map.mp (hperm.mem_iff.mp hr)
  rw [← he]

/-- In any completion order, the binding surviving for a path is that
path's outcome. -/
theorem lookupLast_completions (paths : List RepoPath)
    (spawn : RepoPath → Except (List Char) ProcOutput)
    (completions : List (RepoPath × ProcessStatus))
    (hperm : completions.Perm (paths.map fun p => (p, runTarget spawn p)))
    (p : RepoPath) (hp : p ∈ paths) :
    lookupLast p completions = some (runTarget spawn p) := by
  have hmem : (p, runTarget spawn p) ∈ completions :=
    hperm.mem_iff.mpr (List.mem_map_of_mem _ hp)
  obtain ⟨w, hw⟩ := lookupLast_isSome _ _ _ hmem
  have h2 := completions_value paths spawn completions hperm _ (lookupLast_mem _ _ _ hw)
  rw [hw]
  dsimp only at h2
  rw [h2]

/-- The final status map binds every path to its worker's outcome,
whatever the completion order. -/
theorem alLookup_finalResults (paths : List RepoPath)
    (spawn : RepoPath → Except (List Char) ProcOutput)
    (completions : List (RepoPath × ProcessStatus))
    (hperm : completions.Perm (paths.map fun p => (p, runTarget spawn p)))
    (p : RepoPath) (hp : p ∈ paths) :
    alLookup p (finalResults paths completions) = some (runTarget spawn p) := by
  unfold finalResults
  rw [alLookup_foldl_insert]
  rw [lookupLast_completions paths spawn completions hperm p hp]

/-- A worker never reports `Running`. -/
theorem workerResult_ne_running (x : Except (List Char) ProcOutput) :
    workerResult x ≠ ProcessStatus.Running := by
  cases x with
  | ok o =>
    dsimp [workerResult]
    split <;> simp
  | error e => simp [workerResult]

/-- With distinct keys, every entry of the map is its key's lookup. -/
theorem alLookup_of_mem_nodup (m : ProcessStatuses) :
    (alKeys m).Nodup → ∀ e ∈ m, alLookup e.1 m = some e.2 := by
  induction m with
  | nil => intro _ e he; cases he
  | cons r rest ih =>
    intro hnd e he
    obtain ⟨k2, v2⟩ := r
    have hnd2 := List.nodup_cons.mp (show (k2 :: alKeys rest).Nodup from hnd)
    rcases List.mem_cons.mp he with rfl | hm
    · show (if k2 = k2 then some v2 else alLookup k2 rest) = some v2
      rw [if_pos rfl]
    · have h2 : ¬(e.1 = k2) := by
        intro he2
        apply hnd2.1
        have h5 : e.1 ∈ alKeys rest := List.mem_map_of_mem Prod.fst hm
        rw [he2] at h5
        exact h5
      show (if k2 = e.1 then some v2 else alLookup e.1 rest) = some e.2
      rw [if_neg (fun he3 => h2 he3.symm)]
      exact ih hnd2.2 e hm

/-! ## Orchestrator claims (C1, C5, C6) -/

/-- C1 counterexample: the active-target list may contain the same path
twice (`config::read` does not deduplicate a hand-edited file); both
workers then write the same key, the status map collapses to a single
entry, and the final map has 1 entry where the claim demands `N = 2`.
The completion sequence shown is exactly the two workers' sends. -/
theorem orchestrator_final_state_counterexample :
    ([(['a'], ProcessStatus.Finished []), (['a'], ProcessStatus.Finished [])] =
      ([['a'], ['a']] : List RepoPath).map
        (fun p => (p, runTarget (fun _ => Except.ok ⟨true, [], []⟩) p))) ∧
    (finalResults [['a'], ['a']]
      [(['a'], ProcessStatus.Finished []), (['a'], ProcessStatus.Finished [])]).length = 1 ∧
    ((1 : Nat) ≠ 2) := by decide

/-- C1 (amended): for every list of `N ≥ 0` *distinct* active targets,
after the result channel closes the status map contains exactly `N`
entries, each in a terminal state (never `Running`), and the final
per-target report — the lookups performed by the print loop in original
list order — yields each target's own outcome, for every completion
order of the workers. -/
theorem orchestrator_final_state (paths : List RepoPath)
    (spawn : RepoPath → Except (List Char) ProcOutput)
    (completions : List (RepoPath × ProcessStatus))
    (hnd : paths.Nodup)
    (hperm : completions.Perm (paths.map fun p => (p, runTarget spawn p))) :
    (finalResults paths completions).length = paths.length ∧
    (∀ e ∈ finalResults paths completions, e.2 ≠ ProcessStatus.Running) ∧
    ((paths.map fun p => alLookup p (finalResults paths completions)) =
      paths.map fun p => some (runTarget spawn p)) := by
  have hkeys0 : alKeys (initialResults paths) = paths :=
    alKeys_initialResults paths hnd
  have hksub : ∀ r ∈ completions, r.1 ∈ alKeys (initialResults paths) := by
    intro r hr
    rw [hkeys0]
    obtain ⟨p, hp, he⟩ := List.mem_map.mp (hperm.mem_iff.mp hr)
    rw [← he]
    exact hp
  have hkeys : alKeys (finalResults paths completions) = paths := by
    unfold finalResults
    rw [alKeys_foldl_insert completions (initialResults paths) hksub, hkeys0]
  refine ⟨?_, ?_, ?_⟩
  · have h1 : (alKeys (finalResults paths completions)).length =
        (finalResults paths completions).length := List.length_map _ _
    rw [← h1, hkeys]
  · intro e he
    have h2 := alLookup_of_mem_nodup _ (by rw [hkeys]; exact hnd) e he
    have h3 : e.1 ∈ paths := by
      rw [← hkeys]
      exact List.mem_map_of_mem Prod.fst he
    rw [alLookup_finalResults paths spawn completions hperm e.1 h3] at h2
    obtain he2 := Option.some.inj h2
    rw [← he2]
    exact workerResult_ne_running _
  · apply List.map_congr_left
    intro p hp
    rw [alLookup_finalResults paths spawn completions hperm p hp]

/-- Witness for C1: two distinct targets, one failing, completing in
reversed order. -/
theorem orchestrator_final_state_witness :
    ((([['a'], ['b']] : List RepoPath).Nodup ∧
      List.Perm
        [(['b'], ProcessStatus.Error ['e']), (['a'], ProcessStatus.Finished ['o'])]
        (([['a'], ['b']] : List RepoPath).map
          (fun p => (p, runTarget
            (fun p => if p = ['a'] then Except.ok ⟨true, ['o'], []⟩
                      else Except.error ['e']) p)))) ∧
    (finalResults [['a'], ['b']]
      [(['b'], ProcessStatus.Error ['e']), (['a'], ProcessStatus.Finished ['o'])]).length =
        ([['a'], ['b']] : List RepoPath).length) ∧
    (∀ e ∈ finalResults [['a'], ['b']]
        [(['b'], ProcessStatus.Error ['e']), (['a'], ProcessStatus.Finished ['o'])],
      e.2 ≠ ProcessStatus.Running) :=
  ⟨⟨⟨by decide, by decide⟩,
    (orchestrator_final_state [['a'], ['b']]
      (fun p => if p = ['a'] then Except.ok ⟨true, ['o'], []⟩ else Except.error ['e'])
      [(['b'], ProcessStatus.Error ['e']), (['a'], ProcessStatus.Finished ['o'])]
      (by decide) (by decide)).1⟩,
    (orchestrator_final_state [['a'], ['b']]
      (fun p => if p = ['a'] then Except.ok ⟨true, ['o'], []⟩ else Except.error ['e'])
      [(['b'], ProcessStatus.Error ['e']), (['a'], ProcessStatus.Finished ['o'])]
      (by decide) (by decide)).2.1⟩

/-- The print loop over a map binding each listed path to a terminal
outcome emits exactly the blocks of the reportable paths, in list
order. -/
theorem reportBlocks_eq_filter (m : ProcessStatuses)
    (f : RepoPath → ProcessStatus) :
    ∀ (l : List RepoPath), (∀ p ∈ l, alLookup p m = some (f p)) →
      (∀ p ∈ l, f p ≠ ProcessStatus.Running) →
      reportBlocks l m =
        (l.filter fun p => shouldReport (f p)).map fun p => (p, f p) := by
  intro l
  induction l with
  | nil => intro _ _; rfl
  | cons p rest ih =>
    intro h1 h2
    simp only [reportBlocks, List.filterMap_cons, List.filter_cons]
    rw [h1 p (by simp)]
    have hrest : reportBlocks rest m =
        (rest.filter fun p => shouldReport (f p)).map fun p => (p, f p) :=
      ih (fun q hq => h1 q (by simp [hq])) (fun q hq => h2 q (by simp [hq]))
    simp only [reportBlocks] at hrest
    cases hfp : f p with
    | Running => exact absurd hfp (h2 p (by simp))
    | Finished out =>
      by_cases ho : out = []
      · subst ho
        simpa [shouldReport, hfp] using hrest
      · simpa [shouldReport, ho, hfp] using hrest
    | Error e =>
      simpa [shouldReport, hfp] using hrest

/-- C5: after all workers finish, the framed blocks are printed exactly
for targets whose outcome is `Error` or `Finished` with non-empty
output, in the original target order, independent of completion order. -/
theorem orchestrator_report_blocks (paths : List RepoPath)
    (spawn : RepoPath → Except (List Char) ProcOutput)
    (completions : List (RepoPath × ProcessStatus))
    (hperm : completions.Perm (paths.map fun p => (p, runTarget spawn p))) :
    reportBlocks paths (finalResults paths completions) =
      (paths.filter fun p => shouldReport (runTarget spawn p)).map
        fun p => (p, runTarget spawn p) :=
  reportBlocks_eq_filter _ _ paths
    (fun p hp => alLookup_finalResults paths spawn completions hperm p hp)
    (fun _ _ => workerResult_ne_running _)

/-- Witness for C5: the specification's Scenario B.  Five targets with
outcomes `Finished ""`, `Finished ""`, `Finished "out"`, `Error "boom"`,
`Finished ""` completing in scrambled order print exactly two blocks, in
original target order. -/
theorem orchestrator_report_blocks_witness :
    (List.Perm
      [(['d'], ProcessStatus.Error ['b', 'o', 'o', 'm']),
       (['b'], ProcessStatus.Finished []),
       (['e'], ProcessStatus.Finished []),
       (['a'], ProcessStatus.Finished []),
       (['c'], ProcessStatus.Finished ['o', 'u', 't'])]
      (([['a'], ['b'], ['c'], ['d'], ['e']] : List RepoPath).map
        (fun p => (p, runTarget
          (fun p =>
            if p = ['c'] then Except.ok ⟨true, ['o', 'u', 't'], []⟩
            else if p = ['d'] then Except.ok ⟨false, [], ['b', 'o', 'o', 'm']⟩
            else Except.ok ⟨true, [], []⟩) p)))) ∧
    reportBlocks [['a'], ['b'], ['c'], ['d'], ['e']]
      (finalResults [['a'], ['b'], ['c'], ['d'], ['e']]
        [(['d'], ProcessStatus.Error ['b', 'o', 'o', 'm']),
         (['b'], ProcessStatus.Finished []),
         (['e'], ProcessStatus.Finished []),
         (['a'], ProcessStatus.Finished []),
         (['c'], ProcessStatus.Finished ['o', 'u', 't'])]) =
      [(['c'], ProcessStatus.Finished ['o', 'u', 't']),
       (['d'], ProcessStatus.Error ['b', 'o', 'o', 'm'])] := by
  constructor
  · decide
  · rw [orchestrator_report_blocks [['a'], ['b'], ['c'], ['d'], ['e']]
      (fun p =>
        if p = ['c'] then Except.ok ⟨true, ['o', 'u', 't'], []⟩
        else if p = ['d'] then Except.ok ⟨false, [], ['b', 'o', 'o', 'm']⟩
        else Except.ok ⟨true, [], []⟩)
      _ (by decide)]
    decide

/-- C6: a worker's outcome is determined solely by the child process
result — success yields `Finished(stdout)`, failure `Error(stderr)`, a
spawn error `Error(message)` — and a failing target never removes a
sibling from the final report: every path still reads back its own
outcome. -/
theorem worker_outcome_locality (paths : List RepoPath)
    (spawn : RepoPath → Except (List Char) ProcOutput)
    (completions : List (RepoPath × ProcessStatus))
    (hperm : completions.Perm (paths.map fun p => (p, runTarget spawn p))) :
    (∀ o : ProcOutput, workerResult (Except.ok o) =
      if o.success then ProcessStatus.Finished o.stdout
      else ProcessStatus.Error o.stderr) ∧
    (∀ e : List Char, workerResult (Except.error e) = ProcessStatus.Error e) ∧
    (∀ p ∈ paths, alLookup p (finalResults paths completions) =
      some (runTarget spawn p)) :=
  ⟨fun _ => rfl, fun _ => rfl,
    fun p hp => alLookup_finalResults paths spawn completions hperm p hp⟩

/-- Witness for C6: one spawning-failing target next to a succeeding
one, completing out of order; both outcomes are recorded. -/
theorem worker_outcome_locality_witness :
    (List.Perm
      [(['b'], ProcessStatus.Finished ['y']), (['a'], ProcessStatus.Error ['n', 'o'])]
      (([['a'], ['b']] : List RepoPath).map
        (fun p => (p, runTarget
          (fun p => if p = ['a'] then Except.error ['n', 'o']
                    else Except.ok ⟨true, ['y'], []⟩) p)))) ∧
    (∀ p ∈ ([['a'], ['b']] : List RepoPath),
      alLookup p (finalResults [['a'], ['b']]
        [(['b'], ProcessStatus.Finished ['y']), (['a'], ProcessStatus.Error ['n', 'o'])]) =
        some (runTarget
          (fun p => if p = ['a'] then Except.error ['n', 'o']
                    else Except.ok ⟨true, ['y'], []⟩) p)) :=
  ⟨by decide,
    (worker_outcome_locality [['a'], ['b']]
      (fun p => if p = ['a'] then Except.error ['n', 'o']
                else Except.ok ⟨true, ['y'], []⟩)
      [(['b'], ProcessStatus.Finished ['y']), (['a'], ProcessStatus.Error ['n', 'o'])]
      (by decide)).2.2⟩

/-- Witness for C3 at a concrete row: table width 4, a first column of
natural width 3, then a column clipped to width 1 followed by a further
cell; the output is exactly the first column's. -/
theorem row_min_width_break_witness :
    (emitRowAux 4 0 [(⟨[['a']]⟩, 1)] = some ([['a'], [' ', ' ']], 3) ∧
      (3 : Nat) ≤ 1 + 2 ∧ min (3 + (1 + 2)) 4 - 3 < 3) ∧
    emitRowAux 4 0 ([(⟨[['a']]⟩, 1)] ++ (⟨[['z']]⟩, 1) :: [(⟨[['y']]⟩, 9)]) =
      some ([['a'], [' ', ' ']], 3) :=
  ⟨⟨by decide, by decide, by decide⟩,
    row_min_width_break 4 [(⟨[['a']]⟩, 1)] ⟨[['z']]⟩ 1 [(⟨[['y']]⟩, 9)]
      [['a'], [' ', ' ']] 0 3 (by decide) (by decide) (by decide)⟩

end GitLasso
